import Mathlib

/-!
Shallow embedding of tar_checkpoints.py.

The filesystem is an association list from paths to file contents; the tar
archive is the ordered list of its entries (member name, member content).
The multiprocessing queue is the list of items the producer has put on it,
consumed front to first by the single worker process.  Machine-level side
effects (tarf.add, os.remove) become explicit state passing.
-/

namespace TarCP

/-- Filesystem: association list path -> content; lookup finds the first
binding, removal drops every binding of the path. -/
abbrev Fs := List (String × String)

def fslookup : Fs → String → Option String
  | [], _ => none
  | (p, c) :: rest, f => if p = f then some c else fslookup rest f

/-- Effect of os.remove: the path no longer resolves. -/
def eraseKey (f : String) (fs : Fs) : Fs := fs.filter (fun pc => pc.1 ≠ f)

def eraseKeys (l : List String) (fs : Fs) : Fs :=
  match l with
  | [] => fs
  | g :: l' => eraseKeys l' (eraseKey g fs)

/-- Content with a default, used to state what the worker archived. -/
def fsgetD (fs : Fs) (f : String) : String := (fslookup fs f).getD ""

/-- One member of the tar archive. -/
structure Entry where
  name : String
  content : String
deriving DecidableEq

/-- Task(TypedDict): epoch: int, files: List[str]. -/
structure Task where
  epoch : Int
  files : List String
deriving DecidableEq

/-! ### Decimal formatting: Python f-string f"{epoch:05d}" -/

/-- Little-endian decimal digits of n, with explicit fuel (fuel >= n is
enough since n / 10 decreases while n > 0). -/
def digitsRevFuel : Nat → Nat → List Nat
  | 0, _ => []
  | fuel + 1, n => if n = 0 then [] else n % 10 :: digitsRevFuel fuel (n / 10)

/-- Decimal string of a natural number, as Python's str(). -/
def natStr (n : Nat) : String :=
  if n = 0 then "0" else ⟨((digitsRevFuel n n).reverse.map Nat.digitChar)⟩

/-- Zero padding on the left up to width w. -/
def padZeros (w : Nat) (s : String) : String :=
  ⟨List.replicate (w - s.data.length) '0' ++ s.data⟩

/-- Python f"{e:05d}": the minus sign of a negative value occupies one of
the five positions, so the magnitude is padded to width four. -/
def fmtEpoch (e : Int) : String :=
  if e < 0 then ⟨'-' :: (padZeros 4 (natStr e.natAbs)).data⟩
  else padZeros 5 (natStr e.toNat)

/-- Python os.path.basename: everything after the last slash. -/
def afterLastSlash (cs : List Char) : List Char :=
  cs.foldl (fun acc c => if c = '/' then [] else acc ++ [c]) []

def pyBasename (s : String) : String := ⟨afterLastSlash s.data⟩

/-- archname = f"{epoch:05d}/{os.path.basename(file)}" (line 20). -/
def archname (epoch : Int) (file : String) : String :=
  fmtEpoch epoch ++ "/" ++ pyBasename file

/-! ### add_files (lines 15-23) -/

/-- add_files: for each file in list order, append its content to the tar
under archname and delete the original.  The Bool records whether the loop
ran to completion; False means tarf.add raised (file missing) with the
state reached so far, as a Python exception would leave it. -/
def add_files (fs : Fs) (tarf : List Entry) (epoch : Int) (files : List String) :
    Fs × List Entry × Bool :=
  match files with
  | [] => (fs, tarf, true)
  | file :: rest =>
    match fslookup fs file with
    | none => (fs, tarf, false)
    | some content =>
        add_files (eraseKey file fs) (tarf ++ [⟨archname epoch file, content⟩]) epoch rest

/-! ### add_files_daemon (lines 26-43) -/

/-- Items travelling on the JoinableQueue: Task dicts or the string
"break".  In Python a dict never compares equal to a string, which the two
constructors mirror. -/
inductive QItem where
  | task (t : Task)
  | sentinel
deriving DecidableEq

/-- Observable lifecycle events of the worker: queue.task_done calls and
the closing of the tar file when the with-block is left. -/
inductive Ev where
  | ack
  | close
deriving DecidableEq

/-- How the worker loop ended: done (sentinel seen, file closed, final
task_done), crashed (exception while adding files; with-block still closed
the tar, no task_done for that item), blocked (queue exhausted with no
sentinel: queue.get(True) waits forever). -/
inductive DStatus where
  | done
  | crashed
  | blocked
deriving DecidableEq

structure DRes where
  fs : Fs
  archive : List Entry
  events : List Ev
  status : DStatus
deriving DecidableEq

/-- The worker loop of add_files_daemon, consuming the queued items in
FIFO order. -/
def add_files_daemon (fs : Fs) (tarf : List Entry) : List QItem → DRes
  | [] => ⟨fs, tarf, [], .blocked⟩
  | QItem.sentinel :: _ => ⟨fs, tarf, [Ev.close, Ev.ack], .done⟩
  | QItem.task t :: rest =>
      let r := add_files fs tarf t.epoch t.files
      if r.2.2 then
        let k := add_files_daemon r.1 r.2.1 rest
        ⟨k.fs, k.archive, Ev.ack :: k.events, k.status⟩
      else ⟨r.1, r.2.1, [Ev.close], .crashed⟩

/-! ### Controller state and API (class TarCheckpoints) -/

/-- Python str.startswith. -/
def listPre : List Char → List Char → Bool
  | [], _ => true
  | _ :: _, [] => false
  | a :: as, b :: bs => a = b && listPre as bs

def strStartswith (s p : String) : Bool := listPre p.data s.data

/-- os.path.splitext(s)[0] for a string with no directory part: cut at the
last dot unless every character before it is a dot. -/
def lastDotIdx : List Char → Option Nat
  | [] => none
  | c :: cs =>
    match lastDotIdx cs with
    | some i => some (i + 1)
    | none => if c = '.' then some 0 else none

def splitextFst (s : String) : String :=
  match lastDotIdx s.data with
  | none => s
  | some d => if (s.data.take d).all (fun c => c = '.') then s else ⟨s.data.take d⟩

/-- os.path.join for two components (posix rules). -/
def startsWithSlash (s : String) : Bool :=
  match s.data with
  | '/' :: _ => true
  | _ => false

def endsWithSlash (s : String) : Bool :=
  match s.data.getLast? with
  | some '/' => true
  | _ => false

def pathJoin (a b : String) : String :=
  if startsWithSlash b then b
  else if a.data = [] ∨ endsWithSlash a then ⟨a.data ++ b.data⟩
  else ⟨a.data ++ '/' :: b.data⟩

/-- Result of TarCheckpoints.extract: the files written under the
destination (path, content) in extraction order, and the returned path. -/
structure ExtractRes where
  writes : List (String × String)
  ret : String
deriving DecidableEq

/-- TarCheckpoints.extract (lines 67-88).  members stands for
tarfile.open(tar_fp).getmembers(), the archive read from disk. -/
def TarCheckpoints.extract (members : List Entry) (tar_fp : String) (epoch : Int)
    (path? : Option String) : ExtractRes :=
  let epoch_str := fmtEpoch epoch ++ "/"
  let selected := members.filter (fun m => strStartswith m.name epoch_str)
  let path :=
    match path? with
    | none => splitextFst (pyBasename tar_fp)
    | some p => p
  { writes := selected.map (fun m => (pathJoin path m.name, m.content)),
    ret := pathJoin path epoch_str }

/-- The mutable attributes of a TarCheckpoints object: the queue contents
(none before __enter__) and the daemon process (none before __enter__,
some b with b the liveness of the process). -/
structure Ctrl where
  tar_fp : String
  queue : Option (List QItem)
  daemon : Option Bool
deriving DecidableEq

/-- __init__. -/
def TarCheckpoints.mkCtrl (fp : String) : Ctrl := ⟨fp, none, none⟩

/-- __enter__: fresh queue, daemon started and alive. -/
def TarCheckpoints.enterContext (c : Ctrl) : Ctrl :=
  { c with queue := some [], daemon := some true }

/-- The two exception shapes tar_files and _await_queue raise: the usage
message for calls outside a context, the bare/fatal one for a dead
daemon. -/
inductive ExcKind where
  | usage
  | fatal
deriving DecidableEq

/-- tar_files (lines 112-133): usage error when self.daemon is None, fatal
error when the process is not alive, otherwise put the Task. -/
def TarCheckpoints.tar_files (c : Ctrl) (epoch : Int) (filepaths : List String) :
    Except ExcKind Ctrl :=
  if c.daemon = none then .error .usage
  else if c.daemon ≠ some true then .error .fatal
  else .ok { c with queue := some (c.queue.getD [] ++ [QItem.task ⟨epoch, filepaths⟩]) }

/-- self.daemon.kill(). -/
def TarCheckpoints.killDaemon (c : Ctrl) : Ctrl := { c with daemon := some false }

/-- Outcome of _await_queue: the drain finished (with the worker's end
state, its event trace and whether the daemon was then killed), or the
inconsistent-state exception was raised, or queue.join() blocks forever
because the worker died before acknowledging everything. -/
inductive AwaitRes where
  | drained (fs : Fs) (archive : List Entry) (events : List Ev) (killed : Bool)
  | fatalErr
  | hang
deriving DecidableEq

/-- _await_queue (lines 102-110): put "break"; if the daemon is alive,
queue.join() (the worker consumes everything still queued plus the
sentinel) and kill it, else raise.  fs and tarf are the worker-side
filesystem and archive state when deactivation starts. -/
def TarCheckpoints.await_queue (c : Ctrl) (fs : Fs) (tarf : List Entry) :
    AwaitRes × Ctrl :=
  let q := c.queue.getD [] ++ [QItem.sentinel]
  if c.daemon = some true then
    let r := add_files_daemon fs tarf q
    match r.status with
    | .done => (.drained r.fs r.archive r.events true, TarCheckpoints.killDaemon c)
    | _ => (.hang, c)
  else (.fatalErr, c)

/-- __exit__ (lines 97-100): ignores the exception information and always
runs _await_queue. -/
def TarCheckpoints.exitContext (_excType _excValue _excTb : Option String) (c : Ctrl)
    (fs : Fs) (tarf : List Entry) : AwaitRes × Ctrl :=
  TarCheckpoints.await_queue c fs tarf

/-- A whole with-block session in the schedule where the producer enqueues
every task and then leaves the scope: the worker, alive and blocked on the
queue, drains everything during __exit__. -/
def enqueueAll (c : Ctrl) : List Task → Except ExcKind Ctrl
  | [] => .ok c
  | t :: ts =>
    match TarCheckpoints.tar_files c t.epoch t.files with
    | .ok c' => enqueueAll c' ts
    | .error e => .error e

def runSession (fp : String) (fs : Fs) (ts : List Task) : AwaitRes :=
  match enqueueAll (TarCheckpoints.enterContext (TarCheckpoints.mkCtrl fp)) ts with
  | .ok c => (TarCheckpoints.exitContext none none none c fs []).1
  | .error _ => .fatalErr

/-- The entry the worker creates for file f of a task with this epoch,
expressed against the filesystem contents fs. -/
def entryOf (fs : Fs) (e : Int) (f : String) : Entry := ⟨archname e f, fsgetD fs f⟩

def taskEntries (fs : Fs) (t : Task) : List Entry := t.files.map (entryOf fs t.epoch)

/-- Directories an extraction materialises: every proper slash-prefix of a
written path. -/
def prefixesAtSlashes : List Char → List (List Char)
  | [] => []
  | c :: cs =>
      (if c = '/' then [([] : List Char)] else []) ++
        (prefixesAtSlashes cs).map (fun l => c :: l)

def dirsCreated (r : ExtractRes) : List String :=
  r.writes.flatMap (fun w => (prefixesAtSlashes w.1.data).map (fun cs => String.mk cs))

/-- Value of a little-endian digit list. -/
def valLE : List Nat → Nat
  | [] => 0
  | d :: ds => d + 10 * valLE ds

/-- One step of reading a decimal string left to right. -/
def decStep (a : Nat) (c : Char) : Nat := 10 * a + (c.toNat - 48)

/-- Value of a decimal character string (leading zeros ignored). -/
def decodeDec (cs : List Char) : Nat := cs.foldl decStep 0

/-- Index in the final archive at which the entries of the i-th enqueued
task begin. -/
def entryStart (fs : Fs) (ts : List Task) (i : Nat) : Nat :=
  ((ts.take i).flatMap (taskEntries fs)).length

example : fmtEpoch 0 = "00000" := by decide
example : fmtEpoch 42 = "00042" := by decide
example : fmtEpoch (-1) = "-0001" := by decide
example : fmtEpoch 123456 = "123456" := by decide
example : archname 3 "dir/model.pt" = "00003/model.pt" := by decide
example : splitextFst "arch.tar" = "arch" := by decide
example : splitextFst ".bashrc" = ".bashrc" := by decide
example : pathJoin "arch" "00001/" = "arch/00001/" := by decide

/-! ## Decimal formatting lemmas -/

theorem valLE_digitsRevFuel : ∀ (fuel n : Nat), n ≤ fuel → valLE (digitsRevFuel fuel n) = n := by
  intro fuel
  induction fuel with
  | zero => intro n hn; interval_cases n; simp [digitsRevFuel, valLE]
  | succ f ih =>
    intro n hn
    by_cases h0 : n = 0
    · simp [digitsRevFuel, h0, valLE]
    · have hdiv : n / 10 ≤ f := by omega
      simp only [digitsRevFuel, h0, if_false, valLE, ih _ hdiv]
      omega

theorem digitsRevFuel_lt_ten : ∀ (fuel n d : Nat), d ∈ digitsRevFuel fuel n → d < 10 := by
  intro fuel
  induction fuel with
  | zero => intro n d h; simp [digitsRevFuel] at h
  | succ f ih =>
    intro n d h
    by_cases h0 : n = 0
    · simp [digitsRevFuel, h0] at h
    · simp only [digitsRevFuel, h0, if_false, List.mem_cons] at h
      rcases h with h | h
      · omega
      · exact ih _ _ h

theorem digitChar_toNat_sub (d : Nat) (hd : d < 10) : (Nat.digitChar d).toNat - 48 = d := by
  interval_cases d <;> decide

theorem digitChar_not_special (d : Nat) (hd : d < 10) :
    Nat.digitChar d ≠ '-' ∧ Nat.digitChar d ≠ '/' := by
  interval_cases d <;> exact ⟨by decide, by decide⟩

theorem foldl_decStep_digits :
    ∀ (ds : List Nat), (∀ d ∈ ds, d < 10) → ∀ acc : Nat,
      List.foldl decStep acc ((ds.map Nat.digitChar).reverse) = acc * 10 ^ ds.length + valLE ds := by
  intro ds
  induction ds with
  | nil => intro _ acc; simp [valLE]
  | cons d ds' ih =>
    intro hlt acc
    have hd : d < 10 := hlt d (List.mem_cons_self _ _)
    have hds' : ∀ x ∈ ds', x < 10 := fun x hx => hlt x (List.mem_cons_of_mem _ hx)
    simp only [List.map_cons, List.reverse_cons, List.foldl_append, ih hds' acc,
      List.foldl_cons, List.foldl_nil, decStep, digitChar_toNat_sub d hd, valLE,
      List.length_cons, pow_succ]
    ring

theorem decodeDec_natStr (n : Nat) : decodeDec (natStr n).data = n := by
  by_cases h0 : n = 0
  · subst h0; decide
  · have hmem : ∀ d ∈ digitsRevFuel n n, d < 10 := fun d hd => digitsRevFuel_lt_ten n n d hd
    show List.foldl decStep 0 (natStr n).data = n
    have hdata : (natStr n).data = ((digitsRevFuel n n).map Nat.digitChar).reverse := by
      simp [natStr, h0, List.map_reverse]
    rw [hdata, foldl_decStep_digits _ hmem 0, valLE_digitsRevFuel n n (le_refl n)]
    simp

theorem foldl_decStep_zeros (k : Nat) : List.foldl decStep 0 (List.replicate k '0') = 0 := by
  induction k with
  | zero => rfl
  | succ m ih => simpa [List.replicate_succ, decStep] using ih

theorem decodeDec_padZeros (w : Nat) (n : Nat) : decodeDec (padZeros w (natStr n)).data = n := by
  show List.foldl decStep 0 (padZeros w (natStr n)).data = n
  have : (padZeros w (natStr n)).data
      = List.replicate (w - (natStr n).data.length) '0' ++ (natStr n).data := rfl
  rw [this, List.foldl_append, foldl_decStep_zeros]
  exact decodeDec_natStr n

theorem natStr_chars (n : Nat) : ∀ c ∈ (natStr n).data, c ≠ '-' ∧ c ≠ '/' := by
  intro c hc
  by_cases h0 : n = 0
  · subst h0; simp only [natStr, if_pos rfl] at hc
    have : c = '0' := by simpa using hc
    subst this; exact ⟨by decide, by decide⟩
  · simp only [natStr, h0, if_false] at hc
    have hc' : c ∈ (digitsRevFuel n n).reverse.map Nat.digitChar := hc
    rcases List.mem_map.mp hc' with ⟨d, hd, rfl⟩
    exact digitChar_not_special d (digitsRevFuel_lt_ten n n d (List.mem_reverse.mp hd))

theorem padZeros_chars (w n : Nat) : ∀ c ∈ (padZeros w (natStr n)).data, c ≠ '-' ∧ c ≠ '/' := by
  intro c hc
  have hc' : c ∈ List.replicate (w - (natStr n).data.length) '0' ++ (natStr n).data := hc
  rcases List.mem_append.mp hc' with h | h
  · have : c = '0' := List.eq_of_mem_replicate h
    subst this; exact ⟨by decide, by decide⟩
  · exact natStr_chars n c h

theorem natStr_ne_nil (n : Nat) : (natStr n).data ≠ [] := by
  by_cases h0 : n = 0
  · subst h0; decide
  · simp only [natStr, h0, if_false]
    cases hn : n with
    | zero => exact absurd hn h0
    | succ m =>
      show ((digitsRevFuel (m + 1) (m + 1)).reverse.map Nat.digitChar) ≠ []
      simp [digitsRevFuel]

theorem padZeros_ne_nil (w n : Nat) : (padZeros w (natStr n)).data ≠ [] := by
  show List.replicate (w - (natStr n).data.length) '0' ++ (natStr n).data ≠ []
  simp [natStr_ne_nil n]

theorem fmtEpoch_inj : ∀ (e₁ e₂ : Int), fmtEpoch e₁ = fmtEpoch e₂ → e₁ = e₂ := by
  intro e₁ e₂ h
  have hdata : (fmtEpoch e₁).data = (fmtEpoch e₂).data := congrArg String.data h
  by_cases h1 : e₁ < 0 <;> by_cases h2 : e₂ < 0
  · simp only [fmtEpoch, if_pos h1, if_pos h2] at hdata
    have htail : (padZeros 4 (natStr e₁.natAbs)).data = (padZeros 4 (natStr e₂.natAbs)).data :=
      List.tail_eq_of_cons_eq hdata
    have := congrArg decodeDec htail
    rw [decodeDec_padZeros, decodeDec_padZeros] at this
    omega
  · exfalso
    simp only [fmtEpoch, if_pos h1, if_neg h2] at hdata
    rcases hd : (padZeros 5 (natStr e₂.toNat)).data with _ | ⟨c, rest⟩
    · exact padZeros_ne_nil 5 e₂.toNat hd
    · rw [hd] at hdata
      have hcm : c ∈ (padZeros 5 (natStr e₂.toNat)).data := by rw [hd]; exact List.mem_cons_self _ _
      exact (padZeros_chars 5 e₂.toNat c hcm).1 (List.head_eq_of_cons_eq hdata.symm)
  · exfalso
    simp only [fmtEpoch, if_neg h1, if_pos h2] at hdata
    rcases hd : (padZeros 5 (natStr e₁.toNat)).data with _ | ⟨c, rest⟩
    · exact padZeros_ne_nil 5 e₁.toNat hd
    · rw [hd] at hdata
      have hcm : c ∈ (padZeros 5 (natStr e₁.toNat)).data := by rw [hd]; exact List.mem_cons_self _ _
      exact (padZeros_chars 5 e₁.toNat c hcm).1 (List.head_eq_of_cons_eq hdata)
  · simp only [fmtEpoch, if_neg h1, if_neg h2] at hdata
    have := congrArg decodeDec hdata
    rw [decodeDec_padZeros, decodeDec_padZeros] at this
    omega

theorem fmtEpoch_no_slash (e : Int) : '/' ∉ (fmtEpoch e).data := by
  intro hmem
  by_cases h1 : e < 0
  · simp only [fmtEpoch, if_pos h1, List.mem_cons] at hmem
    rcases hmem with h | h
    · exact absurd h.symm (by decide)
    · exact (padZeros_chars 4 e.natAbs '/' h).2 rfl
  · simp only [fmtEpoch, if_neg h1] at hmem
    exact (padZeros_chars 5 e.toNat '/' hmem).2 rfl

/-! ## Prefix selection lemmas -/

theorem listPre_iff_ex : ∀ p s : List Char, listPre p s = true ↔ ∃ r, s = p ++ r := by
  intro p
  induction p with
  | nil => intro s; simp [listPre]
  | cons a as ih =>
    intro s
    cases s with
    | nil =>
      simp only [listPre, List.cons_append]
      constructor
      · intro h; exact absurd h (by simp)
      · rintro ⟨r, hr⟩; exact absurd hr (by simp)
    | cons b bs =>
      simp only [listPre, Bool.and_eq_true, decide_eq_true_eq, ih bs]
      constructor
      · rintro ⟨rfl, r, rfl⟩; exact ⟨r, rfl⟩
      · rintro ⟨r, hr⟩
        rw [List.cons_append] at hr
        injection hr with h1 h2
        exact ⟨h1.symm, r, h2⟩

theorem splitPre_eq : ∀ (p s t u : List Char), '/' ∉ p → '/' ∉ s →
    (∃ r, s ++ '/' :: u = (p ++ '/' :: t) ++ r) → p = s := by
  intro p
  induction p with
  | nil =>
    intro s t u _ hs ⟨r, hr⟩
    cases s with
    | nil => rfl
    | cons c cs =>
      exfalso
      simp only [List.nil_append, List.cons_append] at hr
      injection hr with h1 _
      exact hs (h1 ▸ List.mem_cons_self _ _)
  | cons a as ih =>
    intro s t u hp hs ⟨r, hr⟩
    cases s with
    | nil =>
      exfalso
      simp only [List.nil_append, List.cons_append] at hr
      injection hr with h1 _
      exact hp (h1.symm ▸ List.mem_cons_self _ _)
    | cons b bs =>
      simp only [List.cons_append] at hr
      injection hr with h1 h2
      have hp' : '/' ∉ as := fun hx => hp (List.mem_cons_of_mem _ hx)
      have hs' : '/' ∉ bs := fun hx => hs (List.mem_cons_of_mem _ hx)
      rw [h1, ih bs t u hp' hs' ⟨r, by simpa using h2⟩]

theorem data_append (a b : String) : (a ++ b).data = a.data ++ b.data :=
  String.data_append a b

theorem slash_data : ("/" : String).data = ['/'] := rfl

theorem archname_data (e : Int) (f : String) :
    (archname e f).data = (fmtEpoch e).data ++ '/' :: (pyBasename f).data := by
  show ((fmtEpoch e ++ "/") ++ pyBasename f).data = _
  rw [data_append, data_append, slash_data]
  simp

theorem strStartswith_archname (k e : Int) (f : String) :
    strStartswith (archname e f) (fmtEpoch k ++ "/") = true ↔ e = k := by
  show listPre (fmtEpoch k ++ "/").data (archname e f).data = true ↔ e = k
  rw [listPre_iff_ex, data_append, archname_data]
  constructor
  · rintro ⟨r, hr⟩
    have hpre : ∃ r, (fmtEpoch e).data ++ '/' :: (pyBasename f).data
        = ((fmtEpoch k).data ++ '/' :: ([] : List Char)) ++ r := by
      refine ⟨r, ?_⟩
      rw [hr, slash_data]
    have := splitPre_eq (fmtEpoch k).data (fmtEpoch e).data [] (pyBasename f).data
      (fmtEpoch_no_slash k) (fmtEpoch_no_slash e) hpre
    exact fmtEpoch_inj e k (String.ext this.symm)
  · rintro rfl
    refine ⟨(pyBasename f).data, ?_⟩
    rw [slash_data]
    simp

theorem archname_epoch_inj (e₁ e₂ : Int) (f₁ f₂ : String) :
    archname e₁ f₁ = archname e₂ f₂ → e₁ = e₂ := by
  intro h
  have h1 : strStartswith (archname e₁ f₁) (fmtEpoch e₁ ++ "/") = true :=
    (strStartswith_archname e₁ e₁ f₁).mpr rfl
  rw [h] at h1
  exact ((strStartswith_archname e₁ e₂ f₂).mp h1).symm

/-! ## Filesystem lemmas -/

theorem fslookup_eraseKey (g f : String) (fs : Fs) :
    fslookup (eraseKey g fs) f = if f = g then none else fslookup fs f := by
  induction fs with
  | nil => simp [eraseKey, fslookup]
  | cons pc rest ih =>
    obtain ⟨p, c⟩ := pc
    by_cases hpg : p = g <;> by_cases hpf : p = f <;>
      simp_all [eraseKey, List.filter_cons, fslookup]

theorem fslookup_eraseKeys (l : List String) (fs : Fs) (f : String) :
    fslookup (eraseKeys l fs) f = if f ∈ l then none else fslookup fs f := by
  induction l generalizing fs with
  | nil => simp [eraseKeys]
  | cons g l' ih =>
    show fslookup (eraseKeys l' (eraseKey g fs)) f = _
    rw [ih, fslookup_eraseKey]
    by_cases h1 : f ∈ l' <;> by_cases h2 : f = g <;> simp [h1, h2]

/-! ## Worker specification -/

theorem eraseKeys_append (l₁ l₂ : List String) (fs : Fs) :
    eraseKeys (l₁ ++ l₂) fs = eraseKeys l₂ (eraseKeys l₁ fs) := by
  induction l₁ generalizing fs with
  | nil => simp [eraseKeys]
  | cons g l' ih => simp [eraseKeys, ih]

theorem flatMap_congr_mem {α β : Type} (l : List α) (f g : α → List β)
    (h : ∀ a ∈ l, f a = g a) : l.flatMap f = l.flatMap g := by
  induction l with
  | nil => rfl
  | cons a l' ih =>
    simp only [List.flatMap_cons]
    rw [h a (List.mem_cons_self _ _), ih (fun x hx => h x (List.mem_cons_of_mem _ hx))]

theorem add_files_spec : ∀ (files : List String) (fs : Fs) (tarf : List Entry) (e : Int)
    (fs₂ : Fs) (tarf₂ : List Entry),
    add_files fs tarf e files = (fs₂, tarf₂, true) →
    tarf₂ = tarf ++ files.map (fun f => entryOf fs e f)
      ∧ fs₂ = eraseKeys files fs
      ∧ ∀ f ∈ files, fslookup fs f ≠ none := by
  intro files
  induction files with
  | nil =>
    intro fs tarf e fs₂ tarf₂ h
    simp only [add_files, Prod.mk.injEq] at h
    obtain ⟨h1, h2, -⟩ := h
    simp [← h1, ← h2, eraseKeys]
  | cons f rest ih =>
    intro fs tarf e fs₂ tarf₂ h
    simp only [add_files] at h
    cases hl : fslookup fs f with
    | none => rw [hl] at h; simp at h
    | some content =>
      rw [hl] at h
      obtain ⟨h1, h2, h3⟩ := ih (eraseKey f fs) (tarf ++ [⟨archname e f, content⟩]) e fs₂ tarf₂ h
      have hconv : rest.map (fun g => entryOf (eraseKey f fs) e g)
          = rest.map (fun g => entryOf fs e g) := by
        apply List.map_congr_left
        intro g hg
        have hne := h3 g hg
        rw [fslookup_eraseKey] at hne
        by_cases hgf : g = f
        · simp [hgf] at hne
        · simp only [entryOf, fsgetD, fslookup_eraseKey, if_neg hgf]
      refine ⟨?_, h2, ?_⟩
      · rw [h1, hconv]
        simp only [List.map_cons, List.append_assoc, List.singleton_append]
        congr 2
        simp [entryOf, fsgetD, hl]
      · intro g hg
        rcases List.mem_cons.mp hg with rfl | hg'
        · rw [hl]; exact fun hx => Option.noConfusion hx
        · have hne := h3 g hg'
          rw [fslookup_eraseKey] at hne
          by_cases hgf : g = f
          · simp [hgf] at hne
          · rw [if_neg hgf] at hne; exact hne

theorem add_files_daemon_spec : ∀ (ts : List Task) (fs : Fs) (tarf : List Entry),
    (add_files_daemon fs tarf (ts.map QItem.task ++ [QItem.sentinel])).status = DStatus.done →
    add_files_daemon fs tarf (ts.map QItem.task ++ [QItem.sentinel]) =
      ⟨eraseKeys (ts.flatMap Task.files) fs,
       tarf ++ ts.flatMap (fun t => taskEntries fs t),
       List.replicate ts.length Ev.ack ++ [Ev.close, Ev.ack],
       DStatus.done⟩
      ∧ ∀ t ∈ ts, ∀ f ∈ t.files, fslookup fs f ≠ none := by
  intro ts
  induction ts with
  | nil =>
    intro fs tarf _
    refine ⟨?_, by simp⟩
    simp [add_files_daemon, eraseKeys]
  | cons t ts' ih =>
    intro fs tarf hdone
    rcases hr : add_files fs tarf t.epoch t.files with ⟨fs₁, tarf₁, ok⟩
    have hq : (t :: ts').map QItem.task ++ [QItem.sentinel]
        = QItem.task t :: (ts'.map QItem.task ++ [QItem.sentinel]) := by simp
    rw [hq] at hdone ⊢
    cases ok with
    | false =>
      exfalso
      simp only [add_files_daemon, hr] at hdone
      exact DStatus.noConfusion hdone
    | true =>
      have hstep : add_files_daemon fs tarf
            (QItem.task t :: (ts'.map QItem.task ++ [QItem.sentinel]))
          = ⟨(add_files_daemon fs₁ tarf₁ (ts'.map QItem.task ++ [QItem.sentinel])).fs,
             (add_files_daemon fs₁ tarf₁ (ts'.map QItem.task ++ [QItem.sentinel])).archive,
             Ev.ack :: (add_files_daemon fs₁ tarf₁ (ts'.map QItem.task ++ [QItem.sentinel])).events,
             (add_files_daemon fs₁ tarf₁ (ts'.map QItem.task ++ [QItem.sentinel])).status⟩ := by
        simp [add_files_daemon, hr]
      rw [hstep] at hdone ⊢
      have hdone' : (add_files_daemon fs₁ tarf₁ (ts'.map QItem.task ++ [QItem.sentinel])).status
          = DStatus.done := hdone
      obtain ⟨htarf₁, hfs₁, hall⟩ := add_files_spec t.files fs tarf t.epoch fs₁ tarf₁ hr
      obtain ⟨hrec, hpres⟩ := ih fs₁ tarf₁ hdone'
      have hkey : ∀ u ∈ ts', ∀ g ∈ u.files, g ∉ t.files ∧ fslookup fs₁ g = fslookup fs g := by
        intro u hu g hg
        have hne := hpres u hu g hg
        rw [hfs₁, fslookup_eraseKeys] at hne ⊢
        by_cases hmem : g ∈ t.files
        · simp [hmem] at hne
        · exact ⟨hmem, by rw [if_neg hmem]⟩
      have hflat : ts'.flatMap (fun u => taskEntries fs₁ u)
          = ts'.flatMap (fun u => taskEntries fs u) := by
        apply flatMap_congr_mem
        intro u hu
        apply List.map_congr_left
        intro g hg
        simp only [entryOf, fsgetD, (hkey u hu g hg).2]
      rw [hrec]
      refine ⟨?_, ?_⟩
      · simp only [DRes.mk.injEq]
        refine ⟨?_, ?_, ?_, trivial⟩
        · rw [hfs₁, ← eraseKeys_append]
          simp [List.flatMap_cons]
        · rw [htarf₁, hflat]
          simp only [List.flatMap_cons, List.append_assoc]
          rfl
        · simp [List.replicate_succ]
      · intro u hu g hg
        rcases List.mem_cons.mp hu with rfl | hu'
        · exact hall g hg
        · rw [← (hkey u hu' g hg).2]
          exact hpres u hu' g hg

theorem daemon_done_sentinel_mem : ∀ (q : List QItem) (fs : Fs) (tarf : List Entry),
    (add_files_daemon fs tarf q).status = DStatus.done → QItem.sentinel ∈ q := by
  intro q
  induction q with
  | nil => intro fs tarf h; exact absurd h (by simp [add_files_daemon])
  | cons it rest ih =>
    intro fs tarf h
    cases it with
    | sentinel => exact List.mem_cons_self _ _
    | task t =>
      rcases hr : add_files fs tarf t.epoch t.files with ⟨fs₁, tarf₁, ok⟩
      cases ok with
      | false =>
        exfalso
        simp only [add_files_daemon, hr] at h
        exact DStatus.noConfusion h
      | true =>
        have h' : (add_files_daemon fs₁ tarf₁ rest).status = DStatus.done := by
          simpa [add_files_daemon, hr] using h
        exact List.mem_cons_of_mem _ (ih fs₁ tarf₁ h')

/-! ## Lifecycle lemmas -/

theorem enqueueAll_spec : ∀ (ts : List Task) (c : Ctrl) (q : List QItem),
    c.daemon = some true → c.queue = some q →
    enqueueAll c ts = Except.ok { c with queue := some (q ++ ts.map QItem.task) } := by
  intro ts
  induction ts with
  | nil =>
    intro c q hd hq
    show Except.ok c = _
    cases c
    simp only at hq
    simp [hq]
  | cons t ts' ih =>
    intro c q hd hq
    have hstep : TarCheckpoints.tar_files c t.epoch t.files
        = Except.ok { c with queue := some (q ++ [QItem.task ⟨t.epoch, t.files⟩]) } := by
      simp [TarCheckpoints.tar_files, hd, hq]
    show (match TarCheckpoints.tar_files c t.epoch t.files with
      | .ok c' => enqueueAll c' ts'
      | .error e => .error e) = _
    rw [hstep]
    have := ih { c with queue := some (q ++ [QItem.task ⟨t.epoch, t.files⟩]) }
      (q ++ [QItem.task ⟨t.epoch, t.files⟩]) (by simpa using hd) rfl
    show enqueueAll _ ts' = _
    rw [this]
    simp [List.append_assoc]

theorem runSession_eq (fp : String) (fs : Fs) (ts : List Task) :
    runSession fp fs ts =
      (match (add_files_daemon fs [] (ts.map QItem.task ++ [QItem.sentinel])).status with
       | DStatus.done =>
           AwaitRes.drained (add_files_daemon fs [] (ts.map QItem.task ++ [QItem.sentinel])).fs
             (add_files_daemon fs [] (ts.map QItem.task ++ [QItem.sentinel])).archive
             (add_files_daemon fs [] (ts.map QItem.task ++ [QItem.sentinel])).events true
       | _ => AwaitRes.hang) := by
  have henq := enqueueAll_spec ts
    (TarCheckpoints.enterContext (TarCheckpoints.mkCtrl fp)) [] rfl rfl
  show (match enqueueAll (TarCheckpoints.enterContext (TarCheckpoints.mkCtrl fp)) ts with
    | .ok c => (TarCheckpoints.exitContext none none none c fs []).1
    | .error _ => .fatalErr) = _
  rw [henq]
  show (TarCheckpoints.await_queue _ fs []).1 = _
  simp only [TarCheckpoints.await_queue, TarCheckpoints.enterContext, TarCheckpoints.mkCtrl]
  simp only [Option.getD_some, List.nil_append, if_pos rfl]
  rcases (add_files_daemon fs [] (ts.map QItem.task ++ [QItem.sentinel])).status <;> rfl

/-- Everything a normally completed session guarantees: the archive is the
per-task entries in enqueue order, every referenced source file is deleted,
every referenced file was present, and the worker acknowledged every task
plus the sentinel, closing the archive before the last acknowledgment. -/
theorem runSession_drained_spec (fp : String) (fs : Fs) (ts : List Task)
    (fs' : Fs) (ar : List Entry) (evs : List Ev) (k : Bool) :
    runSession fp fs ts = AwaitRes.drained fs' ar evs k →
    ar = ts.flatMap (fun t => taskEntries fs t)
      ∧ fs' = eraseKeys (ts.flatMap Task.files) fs
      ∧ evs = List.replicate ts.length Ev.ack ++ [Ev.close, Ev.ack]
      ∧ k = true
      ∧ ∀ t ∈ ts, ∀ f ∈ t.files, fslookup fs f ≠ none := by
  intro h
  rw [runSession_eq] at h
  rcases hst : (add_files_daemon fs [] (ts.map QItem.task ++ [QItem.sentinel])).status with _ | _ | _
  · obtain ⟨hres, hpres⟩ := add_files_daemon_spec ts fs [] hst
    rw [hst] at h
    simp only at h
    injection h with h1 h2 h3 h4
    rw [hres] at h1 h2 h3
    simp only at h1 h2 h3
    exact ⟨h2.symm.trans (by simp), h1.symm, h3.symm, h4.symm, hpres⟩
  · rw [hst] at h; exact absurd h (by simp)
  · rw [hst] at h; exact absurd h (by simp)

/-! ## Archive position lemmas -/

theorem flatMap_decomp (fs : Fs) (ts : List Task) (i : Nat) (hi : i < ts.length) :
    ts.flatMap (fun t => taskEntries fs t)
      = (ts.take i).flatMap (fun t => taskEntries fs t)
        ++ (taskEntries fs ts[i]
          ++ (ts.drop (i + 1)).flatMap (fun t => taskEntries fs t)) := by
  conv_lhs => rw [← List.take_append_drop i ts, List.flatMap_append,
    List.drop_eq_getElem_cons hi, List.flatMap_cons]

theorem entryStart_getElem (fs : Fs) (ts : List Task) (i : Nat) (hi : i < ts.length)
    (a : Nat) (ha : a < (taskEntries fs ts[i]).length) :
    (ts.flatMap (fun t => taskEntries fs t))[entryStart fs ts i + a]?
      = (taskEntries fs ts[i])[a]? := by
  rw [flatMap_decomp fs ts i hi]
  have hlen : ((ts.take i).flatMap (fun t => taskEntries fs t)).length = entryStart fs ts i := rfl
  rw [List.getElem?_append_right (by omega)]
  rw [hlen, Nat.add_sub_cancel_left, List.getElem?_append_left ha]

theorem entryStart_succ (fs : Fs) (ts : List Task) (i : Nat) (hi : i < ts.length) :
    entryStart fs ts (i + 1) = entryStart fs ts i + (taskEntries fs ts[i]).length := by
  simp only [entryStart, List.take_succ, List.getElem?_eq_getElem hi]
  rw [List.flatMap_append]
  simp

theorem entryStart_mono (fs : Fs) (ts : List Task) (i j : Nat) (hij : i ≤ j) :
    entryStart fs ts i ≤ entryStart fs ts j := by
  have h2 : ts.take j = ts.take i ++ (ts.take j).drop i := by
    conv_lhs => rw [← List.take_append_drop i (ts.take j), List.take_take,
      Nat.min_eq_left hij]
  simp only [entryStart]
  conv_rhs => rw [h2]
  rw [List.flatMap_append, List.length_append]
  exact Nat.le_add_right _ _

/-! ## Epoch selection lemmas -/

theorem filter_taskEntries (fs : Fs) (k : Int) (t : Task) :
    (taskEntries fs t).filter (fun m => strStartswith m.name (fmtEpoch k ++ "/"))
      = if t.epoch = k then taskEntries fs t else [] := by
  by_cases h : t.epoch = k
  · rw [if_pos h]
    apply List.filter_eq_self.mpr
    intro m hm
    rcases List.mem_map.mp hm with ⟨f, hf, rfl⟩
    exact (strStartswith_archname k t.epoch f).mpr h
  · rw [if_neg h]
    apply List.filter_eq_nil_iff.mpr
    intro m hm
    rcases List.mem_map.mp hm with ⟨f, hf, rfl⟩
    intro hcon
    exact h ((strStartswith_archname k t.epoch f).mp hcon)

theorem flatMap_if_filter (ts : List Task) (k : Int) (f : Task → List Entry) :
    (ts.flatMap fun t => if t.epoch = k then f t else [])
      = (ts.filter (fun t => t.epoch = k)).flatMap f := by
  induction ts with
  | nil => rfl
  | cons t ts' ih =>
    by_cases h : t.epoch = k <;> simp [List.filter_cons, h, ih]

/-! ## Claims -/

/-- Claim C1: for every sequence of Tasks enqueued during an active
session, after deactivation completes normally, every file referenced by
every enqueued Task is present byte-for-byte inside the archive under its
computed entry name, and no such file still exists at its original
filesystem path. -/
theorem claim_C1_no_data_loss (fp : String) (fs : Fs) (ts : List Task)
    (fs' : Fs) (ar : List Entry) (evs : List Ev) :
    runSession fp fs ts = AwaitRes.drained fs' ar evs true →
    ∀ t ∈ ts, ∀ f ∈ t.files,
      ∃ content, fslookup fs f = some content
        ∧ Entry.mk (archname t.epoch f) content ∈ ar
        ∧ fslookup fs' f = none := by
  intro h t ht f hf
  obtain ⟨har, hfs', -, -, hpres⟩ := runSession_drained_spec fp fs ts fs' ar evs true h
  have hlook := hpres t ht f hf
  rcases hopt : fslookup fs f with _ | content
  · exact absurd hopt hlook
  · refine ⟨content, rfl, ?_, ?_⟩
    · rw [har]
      apply List.mem_flatMap.mpr
      refine ⟨t, ht, ?_⟩
      have hentry : Entry.mk (archname t.epoch f) content = entryOf fs t.epoch f := by
        simp [entryOf, fsgetD, hopt]
      rw [hentry]
      exact List.mem_map.mpr ⟨f, hf, rfl⟩
    · rw [hfs', fslookup_eraseKeys]
      rw [if_pos (List.mem_flatMap.mpr ⟨t, ht, hf⟩)]

theorem claim_C1_witness :
    ∃ content, fslookup [("f1", "a"), ("f2", "b")] "f1" = some content
      ∧ Entry.mk (archname 0 "f1") content ∈ ([⟨"00000/f1", "a"⟩, ⟨"00001/f2", "b"⟩] : List Entry)
      ∧ fslookup [] "f1" = none :=
  claim_C1_no_data_loss "t.tar" [("f1", "a"), ("f2", "b")] [⟨0, ["f1"]⟩, ⟨1, ["f2"]⟩]
    [] [⟨"00000/f1", "a"⟩, ⟨"00001/f2", "b"⟩] [Ev.ack, Ev.ack, Ev.close, Ev.ack]
    (by decide) ⟨0, ["f1"]⟩ (by decide) "f1" (by decide)

/-- Claim C2: after a session that deactivated normally, extracting epoch k
from the resulting archive selects exactly the entries archived by the
tasks whose epoch is k, in order, with the contents the files had in the
source filesystem, and nothing from any other epoch. -/
theorem claim_C2_round_trip (fp : String) (fs : Fs) (ts : List Task)
    (fs' : Fs) (ar : List Entry) (evs : List Ev) (k : Int) (fp2 dst : String) :
    runSession fp fs ts = AwaitRes.drained fs' ar evs true →
    (TarCheckpoints.extract ar fp2 k (some dst)).writes
        = ((ts.filter (fun t => t.epoch = k)).flatMap (fun t => taskEntries fs t)).map
            (fun m => (pathJoin dst m.name, m.content))
      ∧ ∀ t ∈ ts, ∀ f ∈ t.files, fslookup fs f = some (fsgetD fs f) := by
  intro h
  obtain ⟨har, -, -, -, hpres⟩ := runSession_drained_spec fp fs ts fs' ar evs true h
  constructor
  · show (ar.filter (fun m => strStartswith m.name (fmtEpoch k ++ "/"))).map _ = _
    rw [har, List.filter_flatMap]
    have hconv : (ts.flatMap fun t =>
          (taskEntries fs t).filter (fun m => strStartswith m.name (fmtEpoch k ++ "/")))
        = ts.flatMap fun t => if t.epoch = k then taskEntries fs t else [] :=
      flatMap_congr_mem ts _ _ (fun t _ => filter_taskEntries fs k t)
    rw [hconv, flatMap_if_filter]
  · intro t ht f hf
    have hlook := hpres t ht f hf
    rcases hopt : fslookup fs f with _ | content
    · exact absurd hopt hlook
    · simp [fsgetD, hopt]

theorem claim_C2_witness :
    (TarCheckpoints.extract [⟨"00000/f1", "a"⟩, ⟨"00001/f2", "b"⟩] "out.tar" 1 (some "d")).writes
        = ((([⟨0, ["f1"]⟩, ⟨1, ["f2"]⟩] : List Task).filter (fun t => t.epoch = 1)).flatMap
            (fun t => taskEntries [("f1", "a"), ("f2", "b")] t)).map
            (fun m => (pathJoin "d" m.name, m.content))
      ∧ ∀ t ∈ ([⟨0, ["f1"]⟩, ⟨1, ["f2"]⟩] : List Task), ∀ f ∈ t.files,
          fslookup [("f1", "a"), ("f2", "b")] f
            = some (fsgetD [("f1", "a"), ("f2", "b")] f) :=
  claim_C2_round_trip "t.tar" [("f1", "a"), ("f2", "b")] [⟨0, ["f1"]⟩, ⟨1, ["f2"]⟩]
    [] [⟨"00000/f1", "a"⟩, ⟨"00001/f2", "b"⟩] [Ev.ack, Ev.ack, Ev.close, Ev.ack]
    1 "out.tar" "d" (by decide)

/-- Claim C3: in the archive of a normally completed session, the entries
of the i-th enqueued task occupy the consecutive positions starting at
entryStart i, in the order of the task's file list, and every entry of an
earlier task sits at a strictly smaller index than every entry of a later
task. -/
theorem claim_C3_ordering (fp : String) (fs : Fs) (ts : List Task)
    (fs' : Fs) (ar : List Entry) (evs : List Ev) :
    runSession fp fs ts = AwaitRes.drained fs' ar evs true →
    (∀ (i : Nat) (hi : i < ts.length) (a : Nat),
        a < (taskEntries fs ts[i]).length →
        ar[entryStart fs ts i + a]? = (taskEntries fs ts[i])[a]?)
      ∧ ∀ (i j : Nat) (hij : i < j) (hj : j < ts.length) (a b : Nat),
          a < (taskEntries fs (ts.get ⟨i, Nat.lt_trans hij hj⟩)).length →
          entryStart fs ts i + a < entryStart fs ts j + b := by
  intro h
  obtain ⟨har, -, -, -, -⟩ := runSession_drained_spec fp fs ts fs' ar evs true h
  constructor
  · intro i hi a ha
    rw [har]
    exact entryStart_getElem fs ts i hi a ha
  · intro i j hij hj a b ha
    have hi : i < ts.length := Nat.lt_trans hij hj
    have hget : ts.get ⟨i, Nat.lt_trans hij hj⟩ = ts[i] := rfl
    rw [hget] at ha
    have hsucc := entryStart_succ fs ts i hi
    have hmono := entryStart_mono fs ts (i + 1) j hij
    omega

theorem claim_C3_witness :
    (∀ (i : Nat) (hi : i < ([⟨0, ["f1"]⟩, ⟨1, ["f2"]⟩] : List Task).length) (a : Nat),
        a < (taskEntries [("f1", "a"), ("f2", "b")] (([⟨0, ["f1"]⟩, ⟨1, ["f2"]⟩] : List Task)[i])).length →
        (([⟨"00000/f1", "a"⟩, ⟨"00001/f2", "b"⟩] : List Entry))[entryStart [("f1", "a"), ("f2", "b")] [⟨0, ["f1"]⟩, ⟨1, ["f2"]⟩] i + a]?
          = (taskEntries [("f1", "a"), ("f2", "b")] (([⟨0, ["f1"]⟩, ⟨1, ["f2"]⟩] : List Task)[i]))[a]?)
      ∧ ∀ (i j : Nat) (hij : i < j) (hj : j < ([⟨0, ["f1"]⟩, ⟨1, ["f2"]⟩] : List Task).length) (a b : Nat),
          a < (taskEntries [("f1", "a"), ("f2", "b")] (([⟨0, ["f1"]⟩, ⟨1, ["f2"]⟩] : List Task).get ⟨i, Nat.lt_trans hij hj⟩)).length →
          entryStart [("f1", "a"), ("f2", "b")] [⟨0, ["f1"]⟩, ⟨1, ["f2"]⟩] i + a
            < entryStart [("f1", "a"), ("f2", "b")] [⟨0, ["f1"]⟩, ⟨1, ["f2"]⟩] j + b :=
  claim_C3_ordering "t.tar" [("f1", "a"), ("f2", "b")] [⟨0, ["f1"]⟩, ⟨1, ["f2"]⟩]
    [] [⟨"00000/f1", "a"⟩, ⟨"00001/f2", "b"⟩] [Ev.ack, Ev.ack, Ev.close, Ev.ack]
    (by decide)

/-- Claim C4: the entry name written by add_files is exactly the epoch
formatted to five zero-padded digits, a slash, then the basename of the
source file; names from two distinct epochs never coincide. -/
theorem claim_C4_entry_naming :
    (∀ (fs : Fs) (tarf : List Entry) (e : Int) (files : List String)
        (fs₂ : Fs) (tarf₂ : List Entry),
        add_files fs tarf e files = (fs₂, tarf₂, true) →
        tarf₂.map Entry.name
          = tarf.map Entry.name ++ files.map (fun f => fmtEpoch e ++ "/" ++ pyBasename f))
      ∧ ∀ (e₁ e₂ : Int) (f₁ f₂ : String), e₁ ≠ e₂ → archname e₁ f₁ ≠ archname e₂ f₂ := by
  constructor
  · intro fs tarf e files fs₂ tarf₂ h
    obtain ⟨h1, -, -⟩ := add_files_spec files fs tarf e fs₂ tarf₂ h
    rw [h1, List.map_append, List.map_map]
    rfl
  · intro e₁ e₂ f₁ f₂ hne hcon
    exact hne (archname_epoch_inj e₁ e₂ f₁ f₂ hcon)

theorem claim_C4_witness :
    ([⟨"00000/a", "x"⟩] : List Entry).map Entry.name
        = ([] : List Entry).map Entry.name ++ ["a"].map (fun f => fmtEpoch 0 ++ "/" ++ pyBasename f)
      ∧ archname 0 "b" ≠ archname 1 "b" :=
  ⟨claim_C4_entry_naming.1 [("a", "x")] [] 0 ["a"] [] [⟨"00000/a", "x"⟩] (by decide),
   claim_C4_entry_naming.2 0 1 "b" "b" (by decide)⟩

/-- Claim C5: extract selects exactly the members whose name starts with
the zero-padded epoch prefix followed by the separator, writes exactly
those members under the destination (which defaults to the archive's
filename without extension), and returns the destination joined with the
epoch prefix. -/
theorem claim_C5_extract_contract (members : List Entry) (fp : String) (epoch : Int)
    (dst : String) :
    (TarCheckpoints.extract members fp epoch (some dst)).writes
        = (members.filter (fun m => strStartswith m.name (fmtEpoch epoch ++ "/"))).map
            (fun m => (pathJoin dst m.name, m.content))
      ∧ (TarCheckpoints.extract members fp epoch none).writes
          = (members.filter (fun m => strStartswith m.name (fmtEpoch epoch ++ "/"))).map
              (fun m => (pathJoin (splitextFst (pyBasename fp)) m.name, m.content))
      ∧ (TarCheckpoints.extract members fp epoch (some dst)).ret
          = pathJoin dst (fmtEpoch epoch ++ "/")
      ∧ (TarCheckpoints.extract members fp epoch none).ret
          = pathJoin (splitextFst (pyBasename fp)) (fmtEpoch epoch ++ "/")
      ∧ ∀ w, w ∈ (TarCheckpoints.extract members fp epoch (some dst)).writes
          ↔ ∃ m, m ∈ members ∧ strStartswith m.name (fmtEpoch epoch ++ "/") = true
              ∧ w = (pathJoin dst m.name, m.content) := by
  refine ⟨rfl, rfl, rfl, rfl, ?_⟩
  intro w
  show w ∈ (members.filter _).map _ ↔ _
  simp only [List.mem_map, List.mem_filter]
  constructor
  · rintro ⟨m, ⟨hm, hpre⟩, rfl⟩; exact ⟨m, hm, hpre, rfl⟩
  · rintro ⟨m, hm, hpre, rfl⟩; exact ⟨m, ⟨hm, hpre⟩, rfl⟩

/-- Claim C6: leaving the scope always runs deactivation regardless of the
exception information; deactivation raises the fatal inconsistent-state
error when the worker is dead instead of joining, and when the worker is
alive it blocks until every queued task and the sentinel have been
acknowledged and then kills the worker. -/
theorem claim_C6_deactivation (e1 e2 e3 : Option String) (c : Ctrl) (fs : Fs)
    (tarf : List Entry) (ts : List Task) :
    TarCheckpoints.exitContext e1 e2 e3 c fs tarf = TarCheckpoints.await_queue c fs tarf
      ∧ (c.daemon = some false →
          (TarCheckpoints.await_queue c fs tarf).1 = AwaitRes.fatalErr)
      ∧ (c.daemon = some true → c.queue = some (ts.map QItem.task) →
          (add_files_daemon fs tarf (ts.map QItem.task ++ [QItem.sentinel])).status
              = DStatus.done →
          (TarCheckpoints.await_queue c fs tarf).1
              = AwaitRes.drained (eraseKeys (ts.flatMap Task.files) fs)
                  (tarf ++ ts.flatMap (fun t => taskEntries fs t))
                  (List.replicate ts.length Ev.ack ++ [Ev.close, Ev.ack]) true
            ∧ (TarCheckpoints.await_queue c fs tarf).2 = TarCheckpoints.killDaemon c) := by
  refine ⟨rfl, ?_, ?_⟩
  · intro hd
    simp [TarCheckpoints.await_queue, hd]
  · intro hd hq hdone
    obtain ⟨hres, -⟩ := add_files_daemon_spec ts fs tarf hdone
    simp only [TarCheckpoints.await_queue, hd, hq, Option.getD_some, if_pos rfl]
    rw [hres]
    exact ⟨by simp, by simp⟩

theorem claim_C6_witness :
    (TarCheckpoints.await_queue
          ⟨"t.tar", some (([⟨0, ["f1"]⟩] : List Task).map QItem.task), some true⟩
          [("f1", "a")] []).1
        = AwaitRes.drained (eraseKeys (([⟨0, ["f1"]⟩] : List Task).flatMap Task.files) [("f1", "a")])
            ([] ++ ([⟨0, ["f1"]⟩] : List Task).flatMap (fun t => taskEntries [("f1", "a")] t))
            (List.replicate ([⟨0, ["f1"]⟩] : List Task).length Ev.ack ++ [Ev.close, Ev.ack]) true
      ∧ (TarCheckpoints.await_queue
            ⟨"t.tar", some (([⟨0, ["f1"]⟩] : List Task).map QItem.task), some true⟩
            [("f1", "a")] []).2
          = TarCheckpoints.killDaemon
              ⟨"t.tar", some (([⟨0, ["f1"]⟩] : List Task).map QItem.task), some true⟩ :=
  (claim_C6_deactivation none none none
      ⟨"t.tar", some (([⟨0, ["f1"]⟩] : List Task).map QItem.task), some true⟩
      [("f1", "a")] [] [⟨0, ["f1"]⟩]).2.2 rfl rfl (by decide)

/-- Claim C7 counterexample: after the context has been exited the daemon
attribute still holds the killed process, so an enqueue raises the fatal
dead-worker exception, not the usage error the claim predicts for calls
after deactivation. -/
theorem claim_C7_counterexample :
    TarCheckpoints.tar_files
        ((TarCheckpoints.exitContext none none none
            (TarCheckpoints.enterContext (TarCheckpoints.mkCtrl "t.tar")) [] []).2) 0 []
        = Except.error ExcKind.fatal
      ∧ TarCheckpoints.tar_files
          ((TarCheckpoints.exitContext none none none
              (TarCheckpoints.enterContext (TarCheckpoints.mkCtrl "t.tar")) [] []).2) 0 []
          ≠ Except.error ExcKind.usage := by
  refine ⟨rfl, ?_⟩
  intro hcon
  have h : (Except.error ExcKind.fatal : Except ExcKind Ctrl) = Except.error ExcKind.usage := hcon
  simp at h

/-- Claim C7 (amended): enqueue raises the usage error only before
activation, when the daemon attribute is still None; after deactivation
the daemon exists but is dead, so enqueue raises the fatal error, as it
does whenever the worker is not alive; when the worker is alive the Task
is constructed and put on the queue without raising. -/
theorem claim_C7_amended (c : Ctrl) (epoch : Int) (fls : List String) :
    (c.daemon = none → TarCheckpoints.tar_files c epoch fls = Except.error ExcKind.usage)
      ∧ (c.daemon = some false →
          TarCheckpoints.tar_files c epoch fls = Except.error ExcKind.fatal)
      ∧ (c.daemon = some true →
          TarCheckpoints.tar_files c epoch fls
            = Except.ok { c with
                queue := some (c.queue.getD [] ++ [QItem.task ⟨epoch, fls⟩]) }) := by
  refine ⟨?_, ?_, ?_⟩ <;> intro hd <;> simp [TarCheckpoints.tar_files, hd]

theorem claim_C7_amended_witness :
    TarCheckpoints.tar_files ⟨"t.tar", none, none⟩ 0 [] = Except.error ExcKind.usage
      ∧ TarCheckpoints.tar_files ⟨"t.tar", some [], some false⟩ 0 []
          = Except.error ExcKind.fatal
      ∧ TarCheckpoints.tar_files ⟨"t.tar", some [], some true⟩ 0 ["f"]
          = Except.ok ⟨"t.tar", some [QItem.task ⟨0, ["f"]⟩], some true⟩ :=
  ⟨(claim_C7_amended ⟨"t.tar", none, none⟩ 0 []).1 rfl,
   (claim_C7_amended ⟨"t.tar", some [], some false⟩ 0 []).2.1 rfl,
   by simpa using (claim_C7_amended ⟨"t.tar", some [], some true⟩ 0 ["f"]).2.2 rfl⟩

/-- Claim C8 counterexample: extracting an epoch with no matching member
writes no file and creates no directory, so the returned path names a
directory the extraction never created, against the claimed
existing-but-empty directory. -/
theorem claim_C8_counterexample :
    (TarCheckpoints.extract [⟨"00000/a.txt", "x"⟩] "arch.tar" 1 none).writes = []
      ∧ (TarCheckpoints.extract [⟨"00000/a.txt", "x"⟩] "arch.tar" 1 none).ret = "arch/00001/"
      ∧ dirsCreated (TarCheckpoints.extract [⟨"00000/a.txt", "x"⟩] "arch.tar" 1 none) = []
      ∧ "arch/00001/"
          ∉ dirsCreated (TarCheckpoints.extract [⟨"00000/a.txt", "x"⟩] "arch.tar" 1 none) := by
  decide

/-- Claim C8 (amended): for every archive and epoch with no matching
member, extract does not raise and still returns the destination joined
with the epoch prefix, but it extracts nothing and creates no directory;
the returned directory exists only if something else created it. -/
theorem claim_C8_amended (members : List Entry) (fp : String) (epoch : Int)
    (p? : Option String) :
    members.filter (fun m => strStartswith m.name (fmtEpoch epoch ++ "/")) = [] →
    (TarCheckpoints.extract members fp epoch p?).writes = []
      ∧ dirsCreated (TarCheckpoints.extract members fp epoch p?) = []
      ∧ (TarCheckpoints.extract members fp epoch p?).ret
          = pathJoin (match p? with
              | none => splitextFst (pyBasename fp)
              | some p => p) (fmtEpoch epoch ++ "/") := by
  intro hfil
  have hw : (TarCheckpoints.extract members fp epoch p?).writes = [] := by
    show (members.filter _).map _ = []
    rw [hfil]
    rfl
  refine ⟨hw, ?_, rfl⟩
  show (TarCheckpoints.extract members fp epoch p?).writes.flatMap _ = []
  rw [hw]
  simp

theorem claim_C8_amended_witness :
    (TarCheckpoints.extract [⟨"00000/a.txt", "x"⟩] "arch.tar" 2 (some "d")).writes = []
      ∧ dirsCreated (TarCheckpoints.extract [⟨"00000/a.txt", "x"⟩] "arch.tar" 2 (some "d")) = []
      ∧ (TarCheckpoints.extract [⟨"00000/a.txt", "x"⟩] "arch.tar" 2 (some "d")).ret
          = pathJoin (match (some "d" : Option String) with
              | none => splitextFst (pyBasename "arch.tar")
              | some p => p) (fmtEpoch 2 ++ "/") :=
  claim_C8_amended [⟨"00000/a.txt", "x"⟩] "arch.tar" 2 (some "d") (by decide)

/-- Claim C9 counterexample: tar_files accepts a negative epoch together
with a path that exists nowhere and enqueues the Task without raising, so
no validation happens when the Task is constructed. -/
theorem claim_C9_counterexample :
    TarCheckpoints.tar_files ⟨"t.tar", some [], some true⟩ (-1) ["no-such-file"]
      = Except.ok ⟨"t.tar", some [QItem.task ⟨-1, ["no-such-file"]⟩], some true⟩ := by
  rfl

/-- Claim C9 (amended): enqueue validates nothing at construction: with a
live worker it accepts every epoch, negative ones included, and every file
list, nonexistent paths included; existence is checked only when the
Worker consumes the Task, where a missing file crashes the worker loop. -/
theorem claim_C9_amended (c : Ctrl) (epoch : Int) (fls : List String)
    (fs : Fs) (tarf : List Entry) (f : String) (rest : List String) :
    (c.daemon = some true →
        TarCheckpoints.tar_files c epoch fls
          = Except.ok { c with
              queue := some (c.queue.getD [] ++ [QItem.task ⟨epoch, fls⟩]) })
      ∧ (fslookup fs f = none →
          (add_files_daemon fs tarf [QItem.task ⟨epoch, f :: rest⟩]).status
            = DStatus.crashed) := by
  constructor
  · intro hd
    simp [TarCheckpoints.tar_files, hd]
  · intro hf
    simp [add_files_daemon, add_files, hf]

theorem claim_C9_amended_witness :
    TarCheckpoints.tar_files ⟨"t.tar", some [], some true⟩ (-7) ["ghost"]
        = Except.ok { Ctrl.mk "t.tar" (some []) (some true) with
            queue := some ((Ctrl.mk "t.tar" (some []) (some true)).queue.getD []
              ++ [QItem.task ⟨-7, ["ghost"]⟩]) }
      ∧ (add_files_daemon [] [] [QItem.task ⟨-7, ["ghost"]⟩]).status = DStatus.crashed :=
  ⟨(claim_C9_amended ⟨"t.tar", some [], some true⟩ (-7) ["ghost"] [] [] "ghost" []).1 rfl,
   (claim_C9_amended ⟨"t.tar", some [], some true⟩ (-7) ["ghost"] [] [] "ghost" []).2 rfl⟩

/-- Claim C10: a Task item never compares equal to the sentinel; the
worker loop reaches its normal termination only when the sentinel was on
the queue; and on a queue of tasks followed by the sentinel that drains
successfully the worker acknowledges each task in turn, then closes the
archive, then acknowledges the sentinel exactly once. -/
theorem claim_C10_sentinel (t : Task) (q : List QItem) (ts : List Task)
    (fs : Fs) (tarf : List Entry) :
    QItem.task t ≠ QItem.sentinel
      ∧ ((add_files_daemon fs tarf q).status = DStatus.done → QItem.sentinel ∈ q)
      ∧ ((add_files_daemon fs tarf (ts.map QItem.task ++ [QItem.sentinel])).status
            = DStatus.done →
          (add_files_daemon fs tarf (ts.map QItem.task ++ [QItem.sentinel])).events
            = List.replicate ts.length Ev.ack ++ [Ev.close, Ev.ack]) := by
  refine ⟨fun hcon => QItem.noConfusion hcon, daemon_done_sentinel_mem q fs tarf, ?_⟩
  intro hdone
  obtain ⟨hres, -⟩ := add_files_daemon_spec ts fs tarf hdone
  rw [hres]

theorem claim_C10_witness :
    QItem.task ⟨0, ["f1"]⟩ ≠ QItem.sentinel
      ∧ QItem.sentinel ∈ [QItem.task ⟨0, ["f1"]⟩, QItem.sentinel]
      ∧ (add_files_daemon [("f1", "a")] []
            (([⟨0, ["f1"]⟩] : List Task).map QItem.task ++ [QItem.sentinel])).events
          = List.replicate ([⟨0, ["f1"]⟩] : List Task).length Ev.ack ++ [Ev.close, Ev.ack] :=
  ⟨(claim_C10_sentinel ⟨0, ["f1"]⟩ [QItem.task ⟨0, ["f1"]⟩, QItem.sentinel] [⟨0, ["f1"]⟩]
      [("f1", "a")] []).1,
   (claim_C10_sentinel ⟨0, ["f1"]⟩ [QItem.task ⟨0, ["f1"]⟩, QItem.sentinel] [⟨0, ["f1"]⟩]
      [("f1", "a")] []).2.1 (by decide),
   (claim_C10_sentinel ⟨0, ["f1"]⟩ [QItem.task ⟨0, ["f1"]⟩, QItem.sentinel] [⟨0, ["f1"]⟩]
      [("f1", "a")] []).2.2 (by decide)⟩

end TarCP
